import Mathlib

/-!
Shallow embedding of the WARMUP WORM'S TERMINAL TYPER core
(`src/wormtype.cpp`): the typing-session state machine of `main`'s input
loop, the live/final metric formulas, the text generator, and the
leaderboard model (`compareScores`, `addToLeaderboard`, `saveLeaderboard`,
`loadLeaderboard`).

Modelling conventions: C++ `std::string` is `List Char`; `double` is `ℚ`
(value-level IEEE rounding is outside the embedding and is noted where it
matters); `time_t` is `ℕ` (seconds); a thrown exception that the source
does not catch is `Except.error`.
-/

set_option maxRecDepth 40000

namespace WormType

/-- `toUpperCase` (wormtype.cpp:14): per-character `::toupper`. -/
def toUpperCase (s : List Char) : List Char := s.map Char.toUpper

/-! ## Typing session state (locals of `main`'s typing loop) -/

/-- The mutable session state of `main`'s typing loop (wormtype.cpp:1606,
1650-1659): `target`, `typed`, `started`, `start_time`, `has_jumped`,
`jumped_from_pos` (`std::string::npos` is modelled as `none`). -/
structure Session where
  target : List Char
  typed : List Char
  started : Bool
  startTime : Nat
  hasJumped : Bool
  jumpedFromPos : Option Nat

/-- Input events dispatched by the loop at wormtype.cpp:1666-1728.
`restart` is the Enter key (the freshly generated target is a parameter of
`step`); `other` is any key the typing state machine ignores. -/
inductive Event where
  | backspace
  | space
  | printable (c : Char)
  | restart
  | other

/-- The backspace guard at wormtype.cpp:1670:
`has_jumped && typed.length() > jumped_from_pos`. -/
def jumpActive (s : Session) : Bool :=
  s.hasJumped && (match s.jumpedFromPos with
    | some p => decide (p < s.typed.length)
    | none => false)

/-- Index scan over the suffix of the string starting at position `base`:
returns the absolute index of the first occurrence of `c`. -/
def findFrom (c : Char) : List Char → Nat → Option Nat
  | [], _ => none
  | x :: xs, base => if x = c then some base else findFrom c xs (base + 1)

/-- The space-skip scan at wormtype.cpp:1694: `target.find(' ', from)`
(`none` models `std::string::npos`). -/
def findCharFrom (t : List Char) (c : Char) (i : Nat) : Option Nat :=
  findFrom c (t.drop i) i

/-- Scan over the suffix starting at absolute position `base`: the absolute
index of the first non-space (or the string length if all spaces). -/
def skipFrom : List Char → Nat → Nat
  | [], base => base
  | x :: xs, base => if x = ' ' then skipFrom xs (base + 1) else base

/-- The consecutive-space skip loop at wormtype.cpp:1697-1699:
`while (space_pos < target.length() && target[space_pos] == ' ')
space_pos++`. -/
def skipSpacesFrom (t : List Char) (i : Nat) : Nat :=
  skipFrom (t.drop i) i

/-- `next_word_pos` as computed inline at wormtype.cpp:1692-1701: the first
space at or after `start`, then past any consecutive spaces; `t.length`
when no space exists. -/
def nextWordPos (t : List Char) (start : Nat) : Nat :=
  match findCharFrom t ' ' start with
  | none => t.length
  | some sp => skipSpacesFrom t sp

/-- The characters appended by the skip fill loop: one per remaining
target character (`rest`, the target suffix at the typed position), while
the loop budget `k` (distance to `next_word_pos`) lasts: `' '` for target
spaces, the `'_'` incorrect marker otherwise (wormtype.cpp:1705-1709). -/
def fillChars : List Char → Nat → List Char
  | _, 0 => []
  | [], _ + 1 => []
  | c :: cs, k + 1 => (if c = ' ' then ' ' else '_') :: fillChars cs k

/-- The skip fill loop at wormtype.cpp:1704-1710:
`while (typed.length() < next_word_pos && typed.length() < target.length())`
append `' '` or `'_'`.  The loop only ever appends, so it equals `typed`
followed by the fill characters for the target suffix at the old typed
position. -/
def fillSkip (t : List Char) (typed : List Char) (nwp : Nat) : List Char :=
  typed ++ fillChars (t.drop typed.length) (nwp - typed.length)

/-- One step of the event loop at wormtype.cpp:1666-1737. `now` models
`time(nullptr)`; `fresh` is the target regenerated by the Enter branch. -/
def step (now : Nat) (fresh : List Char) (s : Session) : Event → Session
  | .backspace =>
    if jumpActive s then
      { s with typed := s.typed.take (s.jumpedFromPos.getD 0),
               hasJumped := false, jumpedFromPos := none }
    else if s.typed.isEmpty then s
    else
      { s with typed := s.typed.dropLast,
               hasJumped := false, jumpedFromPos := none }
  | .space =>
    if s.typed.length < s.target.length then
      let s1 := if s.started then s
                else { s with started := true, startTime := now }
      if s1.target.get? s1.typed.length ≠ some ' ' then
        let anchor := s1.typed.length
        { s1 with jumpedFromPos := some anchor, hasJumped := true,
                  typed := fillSkip s1.target s1.typed
                             (nextWordPos s1.target anchor) }
      else
        { s1 with typed := s1.typed ++ [' '],
                  hasJumped := false, jumpedFromPos := none }
    else s
  | .printable c =>
    if s.typed.length < s.target.length then
      let s1 := if s.started then s
                else { s with started := true, startTime := now }
      { s1 with typed := s1.typed ++ [c],
                hasJumped := false, jumpedFromPos := none }
    else s
  | .restart =>
    { s with typed := [], started := false, target := fresh,
             hasJumped := false, jumpedFromPos := none }
  | .other => s

/-! ## Metrics (wormtype.cpp:1951-1979 live, 1982-2001 final) -/

/-- The correct-character count loop (wormtype.cpp:1954-1957):
`count of i < min(len(typed), len(target)) with typed[i] == target[i]`. -/
def correctCount (typed target : List Char) : Nat :=
  (typed.zip target).countP (fun pr => pr.1 == pr.2)

/-- `raw_wpm = (correct / 5.0) / (elapsed / 60.0)` (wormtype.cpp:1960). -/
def rawWpm (correct elapsed : Nat) : ℚ :=
  ((correct : ℚ) / 5) / ((elapsed : ℚ) / 60)

/-- `accuracy = correct * 100.0 / typed.length()` (wormtype.cpp:1962). -/
def accuracyPct (correct typedLen : Nat) : ℚ :=
  ((correct : ℚ) * 100) / (typedLen : ℚ)

/-- The accuracy penalty multiplier (wormtype.cpp:1965-1968). -/
def accMult (acc : ℚ) : ℚ := if acc < 50 then acc / 50 else 1

/-- The live statistics block (wormtype.cpp:1951-1979): shown only once
`started && typed.length() > 0`, and only when `elapsed > 0` ("Avoid
division by zero"). -/
structure LiveStats where
  wpm : ℚ
  accuracy : ℚ
  elapsed : Nat

def liveStats (s : Session) (now : Nat) : Option LiveStats :=
  if s.started ∧ 0 < s.typed.length then
    let elapsed := now - s.startTime
    if 0 < elapsed then
      let correct := correctCount s.typed s.target
      let acc := accuracyPct correct s.typed.length
      some ⟨rawWpm correct elapsed * accMult acc, acc, elapsed⟩
    else none
  else none

/-! ## Score records and the leaderboard -/

/-- `struct PlayerScore` (wormtype.cpp:45-57). -/
structure PlayerScore where
  name : List Char
  wpm : ℚ
  accuracy : ℚ
  time : ℚ
  date : List Char
  wordCount : Int
  hasPunctuation : Bool
  hasNumbers : Bool
deriving DecidableEq

/-- The completion block (wormtype.cpp:1982-2001): fires exactly when
`typed.length() == target.length()`; computes `elapsed`, the correct
count, `final_wpm` with the accuracy penalty, and builds the `PlayerScore`
that is added to the leaderboard. There is no `elapsed > 0` guard in this
block: the division by `elapsed` happens even when `elapsed = 0` (in the
C++ source this is an IEEE division by zero producing `inf`/`nan`; in this
`ℚ` embedding division by zero yields `0`). -/
def completedScore (pname date : List Char) (wordCount : Int)
    (punct nums : Bool) (s : Session) (now : Nat) : Option PlayerScore :=
  if s.typed.length = s.target.length then
    let elapsed := now - s.startTime
    let correct := correctCount s.typed s.target
    let acc := accuracyPct correct s.typed.length
    some ⟨pname, rawWpm correct elapsed * accMult acc, acc, (elapsed : ℚ),
          date, wordCount, punct, nums⟩
  else none

/-- `compareScores` (wormtype.cpp:1041-1044). -/
def compareScores (a b : PlayerScore) : Bool :=
  if a.wpm ≠ b.wpm then decide (a.wpm > b.wpm)
  else decide (a.accuracy > b.accuracy)

/-- `a` may come at or before `b` in a `std::sort` by `compareScores`:
the comparator does not order `b` strictly before `a`. -/
def scoreLe (a b : PlayerScore) : Prop := compareScores b a = false

instance : DecidableRel scoreLe := fun a b =>
  inferInstanceAs (Decidable (compareScores b a = false))

/-- `addToLeaderboard` (wormtype.cpp:1047-1057): append, sort by
`compareScores`, keep only the top 10. -/
def addToLeaderboard (leaderboard : List PlayerScore)
    (newScore : PlayerScore) : List PlayerScore :=
  (List.insertionSort scoreLe (leaderboard ++ [newScore])).take 10

/-! ## Text generation (wormtype.cpp:1542-1648)

The typing loop builds `target` by drawing `wordCount` tokens with
`rand() % pool.size()` and joining them with single spaces
(`if (i > 0) target += " "`).  The sequence of `rand()` draws is modelled
by an arbitrary function `picks : ℕ → ℕ` giving the raw value of the
`i`-th call. -/

/-- The base word list (wormtype.cpp:1543-1575). -/
def baseWords : List String :=
  ["the", "quick", "brown", "fox", "jumps", "over", "lazy", "dog", "hello",
   "world", "typing", "test", "program", "simple", "fast", "computer",
   "keyboard", "screen", "mouse", "software", "hardware", "internet",
   "website", "email", "password", "username", "login", "download",
   "upload", "file", "folder", "document", "window", "button", "click",
   "double", "right", "left", "center", "top", "bottom", "middle", "side",
   "front", "back", "forward", "backward", "up", "down", "north", "south",
   "east", "west", "morning", "afternoon", "evening", "night", "today",
   "tomorrow", "yesterday", "week", "month", "year", "time", "clock",
   "watch", "minute", "second", "hour", "schedule", "appointment",
   "meeting", "conference", "presentation", "project", "task", "work",
   "job", "career", "business", "company", "office", "desk", "chair",
   "table", "phone", "mobile", "tablet", "laptop", "desktop", "server",
   "network", "wireless", "bluetooth", "cable", "connection", "signal",
   "data", "information", "knowledge", "learning", "education", "school",
   "university", "student", "teacher", "book", "page", "chapter",
   "paragraph", "sentence", "word", "letter", "number", "count",
   "calculate", "mathematics", "science", "technology", "innovation",
   "development", "progress", "improvement", "solution", "problem",
   "challenge", "opportunity"]

/-- The punctuation word list (wormtype.cpp:1578-1588). -/
def punctuationWords : List String :=
  ["hello,", "world!", "it's", "don't", "can't", "won't", "we're",
   "they're", "you'll", "I'll", "she'll", "he'll", "we'll", "they'll",
   "isn't", "aren't", "wasn't", "weren't", "hasn't", "haven't", "doesn't",
   "didn't", "shouldn't", "wouldn't", "couldn't", "mustn't", "needn't",
   "shan't", "hello.", "goodbye!", "really?", "amazing!", "yes,", "no,",
   "wait...", "stop!", "go!", "help!", "wow!", "oh!"]

/-- The number word list (wormtype.cpp:1591-1601). -/
def numberWords : List String :=
  ["123", "456", "789", "101", "202", "303", "404", "505", "2024", "2025",
   "1995", "2000", "42", "99", "100", "1000", "test1", "test2", "file1",
   "file2", "user1", "user2", "admin123", "pass123", "v1.0", "v2.0", "v3.1",
   "v4.2", "room101", "room202", "apt3b", "unit4a", "level1", "level2",
   "step1", "step2", "page1", "page2", "item1", "item2"]

/-- The pure-number pool of numbers-only mode (wormtype.cpp:1610-1619). -/
def pureNumbers : List String :=
  ["0", "1", "2", "3", "4", "5", "6", "7", "8", "9", "10", "11", "12", "13",
   "14", "15", "16", "17", "18", "19", "20", "25", "30", "42", "50", "75",
   "99", "100", "123", "456", "789", "1000", "2024", "2025", "3000", "5000"]

/-- The pool the generator draws from (wormtype.cpp:1608-1646): numbers-only
mode uses `pureNumbers`; otherwise the base words plus the punctuation
and/or number words according to the flags. -/
def combinedPool (includePunctuation includeNumbers : Bool) : List String :=
  if includeNumbers && !includePunctuation then pureNumbers
  else
    baseWords ++ (if includePunctuation then punctuationWords else []) ++
      (if includeNumbers then numberWords else [])

/-- The token drawn by the `i`-th iteration:
`pool[rand() % pool.size()]` with `pick` the raw `rand()` value. -/
def poolToken (includePunctuation includeNumbers : Bool) (pick : Nat) :
    List Char :=
  ((combinedPool includePunctuation includeNumbers).getD
    (pick % (combinedPool includePunctuation includeNumbers).length)
    "").toList

/-- The generation loop (wormtype.cpp:1621-1624 and 1644-1647):
`for i in [0, wordCount): if (i > 0) target += " "; target += token`. -/
def generateTarget (wordCount : Nat)
    (includePunctuation includeNumbers : Bool) (picks : Nat → Nat) :
    List Char :=
  (List.range wordCount).foldl
    (fun acc i =>
      (if 0 < i then acc ++ [' '] else acc) ++
        poolToken includePunctuation includeNumbers (picks i)) []

/-! ## Persistence: the leaderboard file format

The loader (wormtype.cpp:951-1026) scans each line for its `'|'`
separators with `find` and cuts fields out with `substr`.  Field `k`
(between the `k`-th and `(k+1)`-th pipes) is segment `k` of the line split
on `'|'`; a trailing `substr(pos+1)` with later pipes still present is the
remaining segments re-joined with `'|'` (`std::stoi`/`std::stod` then
parse only a numeric prefix of it). -/

/-- Split on a separator character; a list of `k` separators yields
`k + 1` segments (mirrors the `find('|')` position arithmetic of the
loader). -/
def splitOnChar (sep : Char) : List Char → List (List Char)
  | [] => [[]]
  | c :: cs =>
    if c = sep then [] :: splitOnChar sep cs
    else
      match splitOnChar sep cs with
      | [] => [[c]]
      | s :: ss => (c :: s) :: ss

/-- Numeric value of a digit string (most significant first). -/
def parseDigits (ds : List Char) : Nat :=
  ds.foldl (fun a c => 10 * a + (c.toNat - 48)) 0

/-- Magnitude part of `strtod`: a maximal digit run, optionally followed
by `'.'` and a fractional digit run; at least one digit is required;
trailing junk is ignored. -/
def stodMag (cs : List Char) : Option ℚ :=
  let intPart := cs.takeWhile Char.isDigit
  let rest := cs.dropWhile Char.isDigit
  match rest with
  | [] => if intPart.isEmpty then none else some ((parseDigits intPart : ℚ))
  | c :: rest2 =>
    if c = '.' then
      let frac := rest2.takeWhile Char.isDigit
      if intPart.isEmpty && frac.isEmpty then none
      else some ((parseDigits intPart : ℚ) +
        (parseDigits frac : ℚ) / 10 ^ frac.length)
    else if intPart.isEmpty then none else some ((parseDigits intPart : ℚ))

/-- Model of `std::stod`: skip leading spaces, optional sign, decimal
mantissa; `none` models the `std::invalid_argument` throw when no digits
can be parsed.  (Exponents, hex, inf/nan are not used by this file format
and are not modelled.) -/
def stod (cs : List Char) : Option ℚ :=
  match cs.dropWhile (fun c => c = ' ') with
  | [] => none
  | c :: rest =>
    if c = '-' then (stodMag rest).map (fun q => -q)
    else if c = '+' then stodMag rest
    else stodMag (c :: rest)

/-- Magnitude part of `strtol`: a maximal nonempty digit run. -/
def stoiMag (cs : List Char) : Option Nat :=
  let ds := cs.takeWhile Char.isDigit
  if ds.isEmpty then none else some (parseDigits ds)

/-- Model of `std::stoi`: skip leading spaces, optional sign, decimal
digits; `none` models the `std::invalid_argument` throw. -/
def stoi (cs : List Char) : Option Int :=
  match cs.dropWhile (fun c => c = ' ') with
  | [] => none
  | c :: rest =>
    if c = '-' then
      match stoiMag rest with
      | some n => some (-(n : Int))
      | none => none
    else if c = '+' then
      match stoiMag rest with
      | some n => some ((n : Int))
      | none => none
    else
      match stoiMag (c :: rest) with
      | some n => some ((n : Int))
      | none => none

/-- `"Unknown"`, the default date. -/
def sUnknown : List Char := "Unknown".toList

/-- The loader's handling of one line of `leaderboard.txt`
(wormtype.cpp:957-1020), on the line's `'|'`-segments:

* fewer than 3 pipes (< 4 segments): the line is skipped (`.ok none`);
* `name|wpm|accuracy` are always segments 0-2; their `stod` parses are
  outside any try/catch, so a failure is an uncaught exception
  (`.error ()`), as is a failure on the time field (segment 3);
* exactly 4 segments (`pos4 == npos`): very old format — date
  `"Unknown"`, word count 15, flags false;
* exactly 5 segments: date is segment 4 (rewritten to `"Unknown"` when
  empty), word count 15, flags false;
* 8 or more segments (`pos7 != npos`): newest format; the try block reads
  date, word count, and both flags, and any `stoi` failure resets all
  four to their defaults;
* 6 or 7 segments (`pos5 != npos`, `pos7 == npos`): date and word count,
  where the word count text is everything after the 5th pipe; an `stoi`
  failure falls back to date `"Unknown"`, word count 15. -/
def parseLine (line : List Char) : Except Unit (Option PlayerScore) :=
  match splitOnChar '|' line with
  | s0 :: s1 :: s2 :: s3 :: rest =>
    match stod s1, stod s2 with
    | some wpm, some acc =>
      let name := toUpperCase s0
      match stod s3 with
      | none => .error ()
      | some time =>
        match rest with
        | [] =>
          .ok (some ⟨name, wpm, acc, time, sUnknown, 15, false, false⟩)
        | [s4] =>
          .ok (some ⟨name, wpm, acc, time,
                if s4.isEmpty then sUnknown else s4, 15, false, false⟩)
        | s4 :: s5 :: s6 :: s7 :: rest4 =>
          match stoi s5, stoi s6, stoi (List.intercalate ['|'] (s7 :: rest4)) with
          | some wc, some p, some n =>
            .ok (some ⟨name, wpm, acc, time, s4, wc, p == 1, n == 1⟩)
          | _, _, _ =>
            .ok (some ⟨name, wpm, acc, time, sUnknown, 15, false, false⟩)
        | s4 :: s5 :: rest3 =>
          match stoi (List.intercalate ['|'] (s5 :: rest3)) with
          | some wc =>
            .ok (some ⟨name, wpm, acc, time, s4, wc, false, false⟩)
          | none =>
            .ok (some ⟨name, wpm, acc, time, sUnknown, 15, false, false⟩)
    | _, _ => .error ()
  | _ => .ok none

/-- `loadLeaderboard` (wormtype.cpp:951-1026) on the file's lines: records
accumulate in order; an uncaught parse exception aborts the whole load. -/
def loadLeaderboard : List (List Char) → Except Unit (List PlayerScore)
  | [] => .ok []
  | line :: ls => do
    let r ← parseLine line
    let rest ← loadLeaderboard ls
    match r with
    | some rec => .ok (rec :: rest)
    | none => .ok rest

/-! ### The writer and its numeric formatting

`saveLeaderboard` (wormtype.cpp:1029-1038) streams each record as
`name|wpm|accuracy|time|date|wordCount|hasPunctuation|hasNumbers`.  The
`double` fields go through `operator<<` with the default precision of 6
significant digits, trailing zeros stripped.  `printNum` models this for
nonnegative values: scale the value so that 6 significant digits remain
(counting from the first integer digit), round half-up, strip trailing
fractional zeros.  Value-level IEEE effects (the double nearest to the
mathematical value, round-half-even ties) are outside the embedding. -/

/-- A minimal record with the given WPM (accuracy 90). -/
def sampleScore (w : ℚ) : PlayerScore := ⟨[], w, 90, 0, [], 15, false, false⟩

/-- Nine sample records with WPM 10 down to 2. -/
def sampleBoard : List PlayerScore :=
  [sampleScore 10, sampleScore 9, sampleScore 8, sampleScore 7,
   sampleScore 6, sampleScore 5, sampleScore 4, sampleScore 3,
   sampleScore 2]

end WormType

namespace WormType

/-! ## Supporting lemmas -/

/-! Small arithmetic facts about truncated subtraction, factored out so
that each is proved once and reused by name in the list-index proofs. -/

theorem nsub_succ (b j : Nat) (h : b + 1 ≤ j) : j - b = (j - (b + 1)) + 1 := by
  rw [← Nat.sub_sub]
  exact (Nat.sub_add_cancel (Nat.le_sub_of_add_le (Nat.add_comm b 1 ▸ h))).symm

theorem nlt_of_succ_lt_sub (m b j : Nat) (h1 : m + 1 < j - b) :
    m < j - (b + 1) := by
  rw [← Nat.sub_sub]
  exact Nat.lt_sub_of_add_lt h1

theorem nsub_lt_succ (b j n : Nat) (h1 : j - (b + 1) < n) (h2 : b + 1 ≤ j) :
    j - b < n + 1 := by
  rw [nsub_succ b j h2]
  exact Nat.succ_lt_succ h1

theorem nsub_le_succ (b s n : Nat) (h1 : s - (b + 1) ≤ n) (h2 : b + 1 ≤ s) :
    s - b ≤ n + 1 := by
  rw [nsub_succ b s h2]
  exact Nat.succ_le_succ h1

theorem nsub_eq_succ (b s n : Nat) (h1 : s - (b + 1) = n) (h2 : b + 1 ≤ s) :
    s - b = n + 1 := by
  rw [nsub_succ b s h2, h1]

theorem nsub_lt_sub_right (a k n : Nat) (h1 : a ≤ k) (h2 : k < n) :
    k - a < n - a :=
  Nat.lt_sub_of_add_lt (by rw [Nat.sub_add_cancel h1]; exact h2)

theorem nlt_of_sub_lt_sub (a s n : Nat) (h1 : a ≤ s) (h2 : s - a < n - a) :
    s < n := by
  have han : a < n :=
    Nat.lt_of_sub_ne_zero (Nat.pos_iff_ne_zero.mp
      (Nat.lt_of_le_of_lt (Nat.zero_le _) h2))
  calc s = a + (s - a) := (Nat.add_sub_cancel' h1).symm
    _ < a + (n - a) := Nat.add_lt_add_left h2 a
    _ = n := Nat.add_sub_cancel' (Nat.le_of_lt han)

theorem nle_of_sub_le_sub (a s n : Nat) (h0 : a ≤ s) (h1 : s - a ≤ n - a)
    (h2 : a ≤ n) : s ≤ n :=
  calc s = a + (s - a) := (Nat.add_sub_cancel' h0).symm
    _ ≤ a + (n - a) := Nat.add_le_add_left h1 a
    _ = n := Nat.add_sub_cancel' h2

theorem neq_of_sub_eq_sub (a s n : Nat) (h0 : a ≤ s) (h1 : a ≤ n)
    (h2 : s - a = n - a) : s = n :=
  calc s = a + (s - a) := (Nat.add_sub_cancel' h0).symm
    _ = a + (n - a) := by rw [h2]
    _ = n := Nat.add_sub_cancel' h1

theorem fillChars_length (rest : List Char) (k : Nat) :
    (fillChars rest k).length = min k rest.length := by
  induction rest generalizing k with
  | nil => cases k <;> simp [fillChars]
  | cons c cs ih =>
    cases k with
    | zero => simp [fillChars]
    | succ k => simp [fillChars, ih, Nat.succ_min_succ]

theorem fillSkip_length (t typed : List Char) (nwp : Nat)
    (h1 : typed.length ≤ nwp) (h2 : nwp ≤ t.length) :
    (fillSkip t typed nwp).length = nwp := by
  rw [fillSkip, List.length_append, fillChars_length, List.length_drop,
    Nat.min_eq_left (Nat.sub_le_sub_right h2 _), Nat.add_sub_cancel' h1]

theorem fillSkip_length_le (t typed : List Char) (nwp : Nat)
    (h : typed.length ≤ t.length) :
    (fillSkip t typed nwp).length ≤ t.length := by
  rw [fillSkip, List.length_append, fillChars_length, List.length_drop]
  exact le_trans (Nat.add_le_add_left (Nat.min_le_right _ _) _)
    (le_of_eq (Nat.add_sub_cancel' h))

theorem findFrom_le (c : Char) (l : List Char) (base j : Nat)
    (h : findFrom c l base = some j) : base ≤ j := by
  induction l generalizing base with
  | nil => simp [findFrom] at h
  | cons x xs ih =>
    by_cases hx : x = c
    · simp only [findFrom, if_pos hx, Option.some.injEq] at h
      exact Nat.le_of_eq h
    · simp only [findFrom, if_neg hx] at h
      exact le_trans (Nat.le_succ base) (ih (base + 1) h)

theorem findFrom_lt_length (c : Char) (l : List Char) (base j : Nat)
    (h : findFrom c l base = some j) : j - base < l.length := by
  induction l generalizing base with
  | nil => simp [findFrom] at h
  | cons x xs ih =>
    simp only [List.length_cons]
    by_cases hx : x = c
    · simp only [findFrom, if_pos hx, Option.some.injEq] at h
      rw [← h, Nat.sub_self]
      exact Nat.succ_pos _
    · simp only [findFrom, if_neg hx] at h
      exact nsub_lt_succ base j xs.length (ih (base + 1) h)
        (findFrom_le c xs (base + 1) j h)

theorem findFrom_get (c : Char) (l : List Char) (base j : Nat)
    (h : findFrom c l base = some j) : l.get? (j - base) = some c := by
  induction l generalizing base with
  | nil => simp [findFrom] at h
  | cons x xs ih =>
    by_cases hx : x = c
    · simp only [findFrom, if_pos hx, Option.some.injEq] at h
      rw [← h, Nat.sub_self]
      simp [hx]
    · simp only [findFrom, if_neg hx] at h
      rw [nsub_succ base j (findFrom_le c xs (base + 1) j h)]
      simpa using ih (base + 1) h

theorem findFrom_first (c : Char) (l : List Char) (base j : Nat)
    (h : findFrom c l base = some j) :
    ∀ m, m < j - base → l.get? m ≠ some c := by
  induction l generalizing base with
  | nil => simp [findFrom] at h
  | cons x xs ih =>
    by_cases hx : x = c
    · simp only [findFrom, if_pos hx, Option.some.injEq] at h
      intro m hm
      rw [← h, Nat.sub_self] at hm
      exact absurd hm (Nat.not_lt_zero m)
    · simp only [findFrom, if_neg hx] at h
      intro m hm
      cases m with
      | zero => simpa using hx
      | succ m =>
        simpa using ih (base + 1) h m (nlt_of_succ_lt_sub m base j hm)

theorem findFrom_eq_some (c : Char) (l : List Char) (base j : Nat)
    (h : findFrom c l base = some j) :
    base ≤ j ∧ j - base < l.length ∧ l.get? (j - base) = some c ∧
      ∀ m, m < j - base → l.get? m ≠ some c :=
  ⟨findFrom_le c l base j h, findFrom_lt_length c l base j h,
    findFrom_get c l base j h, findFrom_first c l base j h⟩

theorem findFrom_eq_none (c : Char) (l : List Char) (base : Nat)
    (h : findFrom c l base = none) :
    ∀ m, m < l.length → l.get? m ≠ some c := by
  induction l generalizing base with
  | nil => simp
  | cons x xs ih =>
    by_cases hx : x = c
    · simp [findFrom, hx] at h
    · simp [findFrom, hx] at h
      intro m hm
      cases m with
      | zero => simpa using hx
      | succ m => exact ih (base + 1) h m (by simpa using hm)

theorem skipFrom_le (l : List Char) (base : Nat) : base ≤ skipFrom l base := by
  induction l generalizing base with
  | nil => simp [skipFrom]
  | cons x xs ih =>
    by_cases hx : x = ' '
    · rw [skipFrom, if_pos hx]
      exact le_trans (Nat.le_succ base) (ih (base + 1))
    · rw [skipFrom, if_neg hx]

theorem skipFrom_sub_le (l : List Char) (base : Nat) :
    skipFrom l base - base ≤ l.length := by
  induction l generalizing base with
  | nil => simp [skipFrom]
  | cons x xs ih =>
    simp only [List.length_cons]
    by_cases hx : x = ' '
    · rw [skipFrom, if_pos hx]
      exact nsub_le_succ base _ xs.length (ih (base + 1))
        (skipFrom_le xs (base + 1))
    · rw [skipFrom, if_neg hx, Nat.sub_self]
      exact Nat.zero_le _

theorem skipFrom_spaces (l : List Char) (base : Nat) :
    ∀ m, m < skipFrom l base - base → l.get? m = some ' ' := by
  induction l generalizing base with
  | nil => simp [skipFrom]
  | cons x xs ih =>
    by_cases hx : x = ' '
    · rw [skipFrom, if_pos hx]
      intro m hm
      cases m with
      | zero => simpa using hx
      | succ m =>
        simpa using ih (base + 1) m (nlt_of_succ_lt_sub m base _ hm)
    · rw [skipFrom, if_neg hx]
      intro m hm
      rw [Nat.sub_self] at hm
      exact absurd hm (Nat.not_lt_zero m)

theorem skipFrom_stop (l : List Char) (base : Nat) :
    skipFrom l base - base = l.length ∨
      l.get? (skipFrom l base - base) ≠ some ' ' := by
  induction l generalizing base with
  | nil => left; simp [skipFrom]
  | cons x xs ih =>
    by_cases hx : x = ' '
    · rw [skipFrom, if_pos hx]
      have hle := skipFrom_le xs (base + 1)
      rcases ih (base + 1) with h | h
      · left
        simp only [List.length_cons]
        exact nsub_eq_succ base _ xs.length h hle
      · right
        rw [nsub_succ base _ hle]
        simpa using h
    · rw [skipFrom, if_neg hx]
      right
      simpa using hx

theorem skipFrom_spec (l : List Char) (base : Nat) :
    base ≤ skipFrom l base ∧ skipFrom l base - base ≤ l.length ∧
    (∀ m, m < skipFrom l base - base → l.get? m = some ' ') ∧
    (skipFrom l base - base = l.length ∨
      l.get? (skipFrom l base - base) ≠ some ' ') :=
  ⟨skipFrom_le l base, skipFrom_sub_le l base, skipFrom_spaces l base,
    skipFrom_stop l base⟩

theorem nextWordPos_of_none (t : List Char) (start : Nat)
    (h : findFrom ' ' (t.drop start) start = none) :
    nextWordPos t start = t.length := by
  unfold nextWordPos findCharFrom
  rw [h]

theorem nextWordPos_of_some (t : List Char) (start sp : Nat)
    (h : findFrom ' ' (t.drop start) start = some sp) :
    nextWordPos t start = skipFrom (t.drop sp) sp := by
  unfold nextWordPos findCharFrom skipSpacesFrom
  rw [h]

/-- `nextWordPos t start` is the index of the first character of the next
word at or after `start` (or `t.length` when there is none): the span up
to the first space holds no space, the span from there to the result is
all spaces, and the result sits on a non-space (or at the end). -/
theorem nextWordPos_spec (t : List Char) (start : Nat)
    (hstart : start ≤ t.length) :
    start ≤ nextWordPos t start ∧ nextWordPos t start ≤ t.length ∧
    ∃ sp, start ≤ sp ∧ sp ≤ nextWordPos t start ∧
      (t.get? sp = some ' ' ∨ sp = t.length) ∧
      (∀ k, start ≤ k → k < sp → t.get? k ≠ some ' ') ∧
      (∀ k, sp ≤ k → k < nextWordPos t start → t.get? k = some ' ') ∧
      (nextWordPos t start = t.length ∨
        t.get? (nextWordPos t start) ≠ some ' ') := by
  cases hf : findFrom ' ' (t.drop start) start with
  | none =>
    rw [nextWordPos_of_none t start hf]
    have hn := findFrom_eq_none ' ' (t.drop start) start hf
    refine ⟨hstart, le_refl _, t.length, hstart, le_refl _, Or.inr rfl, ?_, ?_,
      Or.inl rfl⟩
    · intro k hk1 hk2
      have := hn (k - start)
        (by rw [List.length_drop]; exact nsub_lt_sub_right start k t.length hk1 hk2)
      rwa [List.get?_drop, Nat.add_sub_cancel' hk1] at this
    · intro k hk1 hk2
      exact absurd hk2 (Nat.not_lt.2 hk1)
  | some sp =>
    rw [nextWordPos_of_some t start sp hf]
    have h1 := findFrom_le ' ' (t.drop start) start sp hf
    have h2 := findFrom_lt_length ' ' (t.drop start) start sp hf
    have h3 := findFrom_get ' ' (t.drop start) start sp hf
    have h4 := findFrom_first ' ' (t.drop start) start sp hf
    rw [List.get?_drop, Nat.add_sub_cancel' h1] at h3
    have hsplen : sp < t.length := by
      simp only [List.length_drop] at h2
      exact nlt_of_sub_lt_sub start sp t.length h1 h2
    have g1 := skipFrom_le (t.drop sp) sp
    have g2 := skipFrom_sub_le (t.drop sp) sp
    have g3 := skipFrom_spaces (t.drop sp) sp
    have g4 := skipFrom_stop (t.drop sp) sp
    simp only [List.length_drop] at g2
    refine ⟨le_trans h1 g1,
      nle_of_sub_le_sub sp _ t.length g1 g2 (Nat.le_of_lt hsplen),
      sp, h1, g1, Or.inl h3, ?_, ?_, ?_⟩
    · intro k hk1 hk2
      have := h4 (k - start) (nsub_lt_sub_right start k sp hk1 hk2)
      rwa [List.get?_drop, Nat.add_sub_cancel' hk1] at this
    · intro k hk1 hk2
      rcases Nat.eq_or_lt_of_le hk1 with heq | hlt
      · rw [← heq]; exact h3
      · have := g3 (k - sp) (nsub_lt_sub_right sp k _ hk1 hk2)
        rwa [List.get?_drop, Nat.add_sub_cancel' hk1] at this
    · rcases g4 with g4 | g4
      · left
        simp only [List.length_drop] at g4
        exact neq_of_sub_eq_sub sp _ t.length g1 (Nat.le_of_lt hsplen) g4
      · right
        rwa [List.get?_drop, Nat.add_sub_cancel' g1] at g4

theorem fillChars_get? (rest : List Char) (k m : Nat) (h1 : m < k)
    (h2 : m < rest.length) :
    (fillChars rest k).get? m =
      some (if rest.get? m = some ' ' then ' ' else '_') := by
  induction rest generalizing k m with
  | nil => simp at h2
  | cons c cs ih =>
    cases k with
    | zero => exact absurd h1 (Nat.not_lt_zero m)
    | succ k =>
      cases m with
      | zero => simp [fillChars]
      | succ m =>
        simp only [fillChars, List.get?]
        exact ih k m (Nat.lt_of_succ_lt_succ h1) (by simpa using h2)

/-! ## C4: backspace -/

/-- C4: if a jump is active (`has_jumped` with `len(typed) > jump_anchor`),
a single backspace truncates `typed` to exactly `jump_anchor` characters
and clears the jump; otherwise, with no active jump and non-empty `typed`,
backspace removes exactly the last character (and clears jump state). -/
theorem backspace_skip_undo (now : Nat) (fresh : List Char) (s : Session) :
    (∀ p : Nat, s.hasJumped = true → s.jumpedFromPos = some p →
      p < s.typed.length →
      (step now fresh s .backspace).typed = s.typed.take p ∧
      (step now fresh s .backspace).typed.length = p ∧
      (step now fresh s .backspace).hasJumped = false ∧
      (step now fresh s .backspace).jumpedFromPos = none) ∧
    (s.hasJumped = false → s.typed ≠ [] →
      (step now fresh s .backspace).typed = s.typed.dropLast ∧
      (step now fresh s .backspace).typed.length = s.typed.length - 1 ∧
      (step now fresh s .backspace).hasJumped = false ∧
      (step now fresh s .backspace).jumpedFromPos = none) := by
  constructor
  · intro p hj hp hlt
    have hact : jumpActive s = true := by
      simp [jumpActive, hj, hp, hlt]
    simp [step, hact, hp, List.length_take]
    omega
  · intro hj hne
    have hact : jumpActive s = false := by
      simp [jumpActive, hj]
    simp [step, hact, hne, List.length_dropLast]

/-- Closed instance of `backspace_skip_undo`: the spec's own scenario
(`"ca_ "` with anchor 2 snaps back to `"ca"`), and a plain backspace on
`"cat"` drops the `'t'`. -/
theorem backspace_skip_undo_witness :
    ((step 9 [] ⟨"cat dog".toList, "ca_ ".toList, true, 3, true, some 2⟩
        .backspace).typed = "ca_ ".toList.take 2 ∧
      (step 9 [] ⟨"cat dog".toList, "ca_ ".toList, true, 3, true, some 2⟩
        .backspace).typed.length = 2 ∧
      (step 9 [] ⟨"cat dog".toList, "ca_ ".toList, true, 3, true, some 2⟩
        .backspace).hasJumped = false ∧
      (step 9 [] ⟨"cat dog".toList, "ca_ ".toList, true, 3, true, some 2⟩
        .backspace).jumpedFromPos = none) ∧
    ((step 9 [] ⟨"cat dog".toList, "cat".toList, true, 3, false, none⟩
        .backspace).typed = "cat".toList.dropLast ∧
      (step 9 [] ⟨"cat dog".toList, "cat".toList, true, 3, false, none⟩
        .backspace).typed.length = "cat".toList.length - 1 ∧
      (step 9 [] ⟨"cat dog".toList, "cat".toList, true, 3, false, none⟩
        .backspace).hasJumped = false ∧
      (step 9 [] ⟨"cat dog".toList, "cat".toList, true, 3, false, none⟩
        .backspace).jumpedFromPos = none) :=
  ⟨(backspace_skip_undo 9 [] _).1 2 rfl rfl (by decide),
   (backspace_skip_undo 9 [] _).2 rfl (by decide)⟩

/-! ## C3: the mid-word space skip -/

theorem step_space_of_ge (now : Nat) (fresh : List Char) (s : Session)
    (h : ¬ s.typed.length < s.target.length) :
    step now fresh s .space = s := by
  simp only [step, if_neg h]

theorem step_space_mid (now : Nat) (fresh : List Char) (s : Session)
    (hlt : s.typed.length < s.target.length)
    (hmid : s.target.get? s.typed.length ≠ some ' ') :
    (step now fresh s .space).typed =
      fillSkip s.target s.typed (nextWordPos s.target s.typed.length) ∧
    (step now fresh s .space).hasJumped = true ∧
    (step now fresh s .space).jumpedFromPos = some s.typed.length := by
  by_cases hst : s.started = true
  · have hs1 : (if s.started = true then s
        else { s with started := true, startTime := now }) = s := if_pos hst
    simp only [step, hs1]
    rw [if_pos hlt]
    rw [if_pos hmid]
    exact ⟨rfl, rfl, rfl⟩
  · have hs1 : (if s.started = true then s
        else { s with started := true, startTime := now }) =
        { s with started := true, startTime := now } := if_neg hst
    simp only [step, hs1]
    rw [if_pos hlt]
    rw [if_pos hmid]
    exact ⟨rfl, rfl, rfl⟩

theorem step_space_boundary (now : Nat) (fresh : List Char) (s : Session)
    (hlt : s.typed.length < s.target.length)
    (hsp : s.target.get? s.typed.length = some ' ') :
    (step now fresh s .space).typed = s.typed ++ [' '] := by
  by_cases hst : s.started = true
  · have hs1 : (if s.started = true then s
        else { s with started := true, startTime := now }) = s := if_pos hst
    simp only [step, hs1]
    rw [if_pos hlt]
    rw [if_neg (not_not_intro hsp)]
  · have hs1 : (if s.started = true then s
        else { s with started := true, startTime := now }) =
        { s with started := true, startTime := now } := if_neg hst
    simp only [step, hs1]
    rw [if_pos hlt]
    rw [if_neg (not_not_intro hsp)]

theorem step_space_target (now : Nat) (fresh : List Char) (s : Session) :
    (step now fresh s .space).target = s.target := by
  by_cases hlt : s.typed.length < s.target.length
  · by_cases hst : s.started = true
    · have hs1 : (if s.started = true then s
          else { s with started := true, startTime := now }) = s := if_pos hst
      simp only [step, hs1]
      rw [if_pos hlt]
      by_cases hmid : s.target.get? s.typed.length ≠ some ' '
      · rw [if_pos hmid]
      · rw [if_neg hmid]
    · have hs1 : (if s.started = true then s
          else { s with started := true, startTime := now }) =
          { s with started := true, startTime := now } := if_neg hst
      simp only [step, hs1]
      rw [if_pos hlt]
      by_cases hmid : s.target.get? s.typed.length ≠ some ' '
      · rw [if_pos hmid]
      · rw [if_neg hmid]
  · rw [step_space_of_ge now fresh s hlt]

/-- C3: a space pressed mid-word (`target[len(typed)] ≠ ' '`, with
`len(typed) < len(target)`) records `jump_anchor = len(typed)` and
advances `typed` to `next_word_pos`: the typed prefix is kept, every
non-space character introduced by the skip differs from the corresponding
target character (the `'_'` sentinel never occurs in `target`), and the
new length is the index of the next word's first character — the first
non-space after the following space run — or `len(target)` when no next
word exists. -/
theorem space_skip_spec (now : Nat) (fresh : List Char) (s : Session)
    (hlt : s.typed.length < s.target.length)
    (hmid : s.target.get? s.typed.length ≠ some ' ')
    (hsent : '_' ∉ s.target) :
    (step now fresh s .space).hasJumped = true ∧
    (step now fresh s .space).jumpedFromPos = some s.typed.length ∧
    (step now fresh s .space).typed.length =
      nextWordPos s.target s.typed.length ∧
    s.typed.length < (step now fresh s .space).typed.length ∧
    (step now fresh s .space).typed.take s.typed.length = s.typed ∧
    (∀ i, s.typed.length ≤ i → i < (step now fresh s .space).typed.length →
      (step now fresh s .space).typed.get? i ≠ some ' ' →
      (step now fresh s .space).typed.get? i ≠ s.target.get? i) ∧
    (∃ sp, s.typed.length ≤ sp ∧ sp ≤ (step now fresh s .space).typed.length ∧
      (∀ k, s.typed.length ≤ k → k < sp → s.target.get? k ≠ some ' ') ∧
      (∀ k, sp ≤ k → k < (step now fresh s .space).typed.length →
        s.target.get? k = some ' ') ∧
      ((step now fresh s .space).typed.length = s.target.length ∨
        s.target.get? ((step now fresh s .space).typed.length) ≠ some ' ')) := by
  obtain ⟨hty, hj, hpos⟩ := step_space_mid now fresh s hlt hmid
  obtain ⟨w1, w2, sp, w3, w4, wsp, w5, w6, w7⟩ :=
    nextWordPos_spec s.target s.typed.length (Nat.le_of_lt hlt)
  set old := s.typed.length with hold
  set nwp := nextWordPos s.target old with hnwp
  have hspgt : old < sp := by
    rcases wsp with hsp | hsp
    · rcases Nat.eq_or_lt_of_le w3 with heq | h
      · exact absurd (heq ▸ hsp) hmid
      · exact h
    · rw [hsp]
      exact hlt
  have hlen : (step now fresh s .space).typed.length = nwp := by
    rw [hty]
    exact fillSkip_length _ _ _ w1 w2
  have hcontent : ∀ i, old ≤ i → i < nwp →
      (step now fresh s .space).typed.get? i =
        some (if s.target.get? i = some ' ' then ' ' else '_') := by
    intro i hi1 hi2
    rw [hty]
    unfold fillSkip
    rw [List.get?_append_right hi1]
    rw [fillChars_get? _ _ _ (nsub_lt_sub_right old i nwp hi1 hi2)
      (by rw [List.length_drop]
          exact nsub_lt_sub_right old i s.target.length hi1
            (Nat.lt_of_lt_of_le hi2 w2))]
    rw [List.get?_drop, Nat.add_sub_cancel' hi1]
  refine ⟨hj, hpos, hlen,
    by rw [hlen]; exact Nat.lt_of_lt_of_le hspgt w4, ?_, ?_, ?_⟩
  · rw [hty]
    unfold fillSkip
    rw [hold]
    exact List.take_left _ _
  · intro i hi1 hi2 hne
    rw [hlen] at hi2
    have hcc := hcontent i hi1 hi2
    rw [hcc] at hne ⊢
    have hCfalse : ¬ (s.target.get? i = some ' ') := by
      intro hC
      rw [if_pos hC] at hne
      exact hne rfl
    rw [if_neg hCfalse]
    cases hcase : s.target.get? i with
    | none => simp
    | some c =>
      have hcne : c ≠ '_' := fun h => hsent (h ▸ List.get?_mem hcase)
      intro h
      injection h with h2
      exact hcne h2.symm
  · exact ⟨sp, w3, by rw [hlen]; exact w4, w5,
      fun k hk1 hk2 => w6 k hk1 (hlen ▸ hk2),
      by rw [hlen]; exact w7⟩

/-- Closed instance of `space_skip_spec`: the spec's scenario, typing
`"ca"` against `"cat dog"` and pressing space. -/
theorem space_skip_spec_witness :
    (step 5 [] ⟨"cat dog".toList, "ca".toList, true, 3, false, none⟩
        .space).hasJumped = true ∧
    (step 5 [] ⟨"cat dog".toList, "ca".toList, true, 3, false, none⟩
        .space).jumpedFromPos = some "ca".toList.length ∧
    (step 5 [] ⟨"cat dog".toList, "ca".toList, true, 3, false, none⟩
        .space).typed.length = nextWordPos "cat dog".toList "ca".toList.length ∧
    "ca".toList.length <
      (step 5 [] ⟨"cat dog".toList, "ca".toList, true, 3, false, none⟩
        .space).typed.length ∧
    (step 5 [] ⟨"cat dog".toList, "ca".toList, true, 3, false, none⟩
        .space).typed.take "ca".toList.length = "ca".toList ∧
    (∀ i, "ca".toList.length ≤ i →
      i < (step 5 [] ⟨"cat dog".toList, "ca".toList, true, 3, false, none⟩
        .space).typed.length →
      (step 5 [] ⟨"cat dog".toList, "ca".toList, true, 3, false, none⟩
        .space).typed.get? i ≠ some ' ' →
      (step 5 [] ⟨"cat dog".toList, "ca".toList, true, 3, false, none⟩
        .space).typed.get? i ≠ "cat dog".toList.get? i) ∧
    (∃ sp, "ca".toList.length ≤ sp ∧
      sp ≤ (step 5 [] ⟨"cat dog".toList, "ca".toList, true, 3, false, none⟩
        .space).typed.length ∧
      (∀ k, "ca".toList.length ≤ k → k < sp →
        "cat dog".toList.get? k ≠ some ' ') ∧
      (∀ k, sp ≤ k →
        k < (step 5 [] ⟨"cat dog".toList, "ca".toList, true, 3, false, none⟩
          .space).typed.length →
        "cat dog".toList.get? k = some ' ') ∧
      ((step 5 [] ⟨"cat dog".toList, "ca".toList, true, 3, false, none⟩
          .space).typed.length = "cat dog".toList.length ∨
        "cat dog".toList.get?
          ((step 5 [] ⟨"cat dog".toList, "ca".toList, true, 3, false, none⟩
            .space).typed.length) ≠ some ' ')) :=
  space_skip_spec 5 [] ⟨"cat dog".toList, "ca".toList, true, 3, false, none⟩
    (by decide) (by decide) (by decide)

theorem step_space_cases (now : Nat) (fresh : List Char) (s : Session) :
    (step now fresh s .space).target = s.target ∧
    ((step now fresh s .space).typed = s.typed ∨
     (s.typed.length < s.target.length ∧
       ((step now fresh s .space).typed = s.typed ++ [' '] ∨
        (step now fresh s .space).typed =
          fillSkip s.target s.typed (nextWordPos s.target s.typed.length)))) := by
  refine ⟨step_space_target now fresh s, ?_⟩
  by_cases hlt : s.typed.length < s.target.length
  · by_cases hmid : s.target.get? s.typed.length ≠ some ' '
    · exact Or.inr ⟨hlt, Or.inr (step_space_mid now fresh s hlt hmid).1⟩
    · exact Or.inr ⟨hlt,
        Or.inl (step_space_boundary now fresh s hlt (not_not.mp hmid))⟩
  · rw [step_space_of_ge now fresh s hlt]
    exact Or.inl rfl

/-- C8: every event handler preserves `len(typed) ≤ len(target)`:
printable characters and word-boundary spaces append only when
`len(typed) < len(target)`, the skip fill stops at `len(target)`,
backspace only shrinks, and restart clears `typed`. -/
theorem typed_le_target_step (now : Nat) (fresh : List Char) (s : Session)
    (e : Event) (h : s.typed.length ≤ s.target.length) :
    (step now fresh s e).typed.length ≤ (step now fresh s e).target.length := by
  cases e with
  | backspace =>
    by_cases hact : jumpActive s = true
    · simp [step, hact, List.length_take]
      omega
    · simp only [Bool.not_eq_true] at hact
      by_cases hne : s.typed.isEmpty
      · simpa [step, hact, hne] using h
      · simp [step, hact, hne, List.length_dropLast]
        omega
  | space =>
    obtain ⟨htar, hty⟩ := step_space_cases now fresh s
    rw [htar]
    rcases hty with h1 | ⟨hlt, h1 | h1⟩
    · rw [h1]; exact h
    · rw [h1]; simp; omega
    · rw [h1]; exact fillSkip_length_le _ _ _ h
  | printable c =>
    by_cases hlt : s.typed.length < s.target.length
    · simp only [step]
      split_ifs <;> simp_all
      all_goals omega
    · simp only [step]
      split_ifs
      simp_all
  | restart => simp [step]
  | other => simpa [step] using h

/-! ## C1: the `elapsed == 0` division guard

The live statistics block guards its division with `if (elapsed > 0)`
(wormtype.cpp:1953).  The completion block (wormtype.cpp:1982-2001) has no
such guard: when `len(typed) == len(target)` it always computes
`raw_final_wpm = (correct / 5.0) / (elapsed / 60.0)` and records the
resulting score, even when `elapsed == 0` — in the C++ source that is an
IEEE division by zero, so an `inf` (or `nan`) WPM is added to the
leaderboard and saved. -/

/-- C1 fails on the code: in the state where `"go"` has been fully typed
against target `"go"` within the same wall-clock second
(`now = start_time`, so `elapsed = now - start_time = 0`), the live
display reports nothing (its guard works), but the `Completed` transition
still computes and records a final score whose WPM comes from dividing by
the zero elapsed time (`rawWpm 2 0`; `inf` in the C++ original, `0` in
this `ℚ` embedding). -/
theorem completion_elapsed_zero_score :
    liveStats ⟨"go".toList, "go".toList, true, 100, false, none⟩ 100
      = none ∧
    (100 : Nat) - 100 = 0 ∧
    completedScore "AL".toList "11/11/2025 10:00".toList 15 false false
        ⟨"go".toList, "go".toList, true, 100, false, none⟩ 100
      = some ⟨"AL".toList, rawWpm 2 0 * accMult (accuracyPct 2 2),
          accuracyPct 2 2, ((0 : Nat) : ℚ), "11/11/2025 10:00".toList,
          15, false, false⟩ :=
  ⟨rfl, rfl, rfl⟩

/-- Closed instance of `typed_le_target_step`: a space event on the
mid-word state `"ca"` against `"cat dog"`. -/
theorem typed_le_target_step_witness :
    (step 9 [] ⟨"cat dog".toList, "ca".toList, true, 3, false, none⟩
        .space).typed.length ≤
      (step 9 [] ⟨"cat dog".toList, "ca".toList, true, 3, false, none⟩
        .space).target.length :=
  typed_le_target_step 9 [] _ .space (by decide)

/-! ## C10: lines with fewer than three pipe separators are skipped -/

/-- C10: a line with fewer than three `'|'` separators (fewer than four
segments) fails the `pos1 != npos && pos2 != npos && pos3 != npos` check:
the loader attempts no numeric parse on it (so no exception can arise from
it, whatever its content), appends no record, and the load of the
remaining lines is unchanged. -/
theorem short_line_skipped (line : List Char)
    (h : (splitOnChar '|' line).length < 4) :
    parseLine line = .ok none ∧
    ∀ ls, loadLeaderboard (line :: ls) = loadLeaderboard ls := by
  have hp : parseLine line = .ok none := by
    unfold parseLine
    rcases hs : splitOnChar '|' line with _ | ⟨a, _ | ⟨b, _ | ⟨c, _ | ⟨d, e⟩⟩⟩⟩ <;>
      first
        | rfl
        | (rw [hs] at h; simp only [List.length_cons] at h; omega)
  refine ⟨hp, fun ls => ?_⟩
  have hdo : loadLeaderboard (line :: ls) =
      Except.bind (parseLine line) (fun r =>
        Except.bind (loadLeaderboard ls) (fun rest =>
          match r with
          | some rec => Except.ok (rec :: rest)
          | none => Except.ok rest)) := rfl
  rw [hdo, hp]
  cases hrest : loadLeaderboard ls with
  | ok l => rfl
  | error e => rfl

/-- Closed instance of `short_line_skipped`: a pipe-free line of garbage
is ignored and drops out of the load. -/
theorem short_line_skipped_witness :
    parseLine "no pipes here".toList = .ok none ∧
    ∀ ls, loadLeaderboard ("no pipes here".toList :: ls) = loadLeaderboard ls :=
  short_line_skipped "no pipes here".toList (by decide)

/-! ## C6: the 3-pipe legacy shape gets the documented defaults -/

/-- C6: a line in the oldest shape — three `'|'` separators, i.e. segments
`NAME|WPM|ACCURACY|TIME` (`pos4 == npos`) — loads (when its three numeric
fields parse) into a record with date `"Unknown"`, word count `15`, and
both flags `false`; the name is upper-cased. -/
theorem legacy3_defaults (line s0 s1 s2 s3 : List Char) (w a t : ℚ)
    (hsplit : splitOnChar '|' line = [s0, s1, s2, s3])
    (hw : stod s1 = some w) (ha : stod s2 = some a)
    (ht : stod s3 = some t) :
    parseLine line =
      .ok (some ⟨toUpperCase s0, w, a, t, sUnknown, 15, false, false⟩) := by
  unfold parseLine
  rw [hsplit]
  simp only [hw, ha, ht]

/-- Closed instance of `legacy3_defaults` on the line `"bob|42|95|30"`. -/
theorem legacy3_defaults_witness :
    parseLine "bob|42|95|30".toList =
      .ok (some ⟨toUpperCase "bob".toList,
        ((parseDigits "42".toList : ℕ) : ℚ),
        ((parseDigits "95".toList : ℕ) : ℚ),
        ((parseDigits "30".toList : ℕ) : ℚ), sUnknown, 15, false, false⟩) :=
  legacy3_defaults "bob|42|95|30".toList "bob".toList "42".toList
    "95".toList "30".toList _ _ _ (by decide) rfl rfl rfl

/-! ## C2: which parse failures the loader survives

The try/catch blocks of the loader cover only the date/word-count/flag
fields.  The `std::stod` calls for the WPM, accuracy, and time fields
(wormtype.cpp:968, 969, 978, 981) are outside every try block, so a parse
failure there propagates out of `loadLeaderboard` uncaught. -/

/-- C2 fails on the code: a line whose WPM field does not parse
(`"AL|x|50|30"`) aborts the whole load — including any well-formed lines
after it — rather than being recovered with defaults. -/
theorem wpm_parse_failure_aborts_load :
    loadLeaderboard ["AL|x|50|30".toList] = .error () ∧
    loadLeaderboard ["AL|x|50|30".toList, "BO|10|90|5".toList]
      = .error () :=
  ⟨rfl, rfl⟩

/-- C2 as amended: on any line with at least three `'|'` separators whose
WPM, accuracy, and time fields all parse, `parseLine` always succeeds —
a numeric parse failure in the word-count or flag fields (or a malformed
date/word-count tail) is recovered by the documented defaults and never
aborts the load. -/
theorem late_parse_failures_never_abort (line s0 s1 s2 s3 : List Char)
    (rest : List (List Char))
    (hsplit : splitOnChar '|' line = s0 :: s1 :: s2 :: s3 :: rest)
    (h1 : (stod s1).isSome) (h2 : (stod s2).isSome)
    (h3 : (stod s3).isSome) :
    ∃ r, parseLine line = .ok (some r) := by
  obtain ⟨w, hw⟩ := Option.isSome_iff_exists.1 h1
  obtain ⟨a, ha⟩ := Option.isSome_iff_exists.1 h2
  obtain ⟨t, ht⟩ := Option.isSome_iff_exists.1 h3
  unfold parseLine
  rw [hsplit]
  simp only [hw, ha, ht]
  rcases rest with _ | ⟨s4, _ | ⟨s5, _ | ⟨s6, _ | ⟨s7, rest4⟩⟩⟩⟩
  · exact ⟨_, rfl⟩
  · exact ⟨_, rfl⟩
  · dsimp only
    cases stoi (List.intercalate ['|'] [s5]) <;> exact ⟨_, rfl⟩
  · dsimp only
    cases stoi (List.intercalate ['|'] [s5, s6]) <;> exact ⟨_, rfl⟩
  · dsimp only
    cases stoi s5 <;> cases stoi s6 <;>
      cases stoi (List.intercalate ['|'] (s7 :: rest4)) <;> exact ⟨_, rfl⟩

/-- Closed instance of `late_parse_failures_never_abort`: an 8-field line
whose word-count and flag fields are garbage still loads. -/
theorem late_parse_failures_never_abort_witness :
    ∃ r, parseLine "AL|10|90|30|05/06/2025|junk|x|y".toList
      = .ok (some r) :=
  late_parse_failures_never_abort "AL|10|90|30|05/06/2025|junk|x|y".toList
    "AL".toList "10".toList "90".toList "30".toList
    ["05/06/2025".toList, "junk".toList, "x".toList, "y".toList]
    (by decide) (by decide) (by decide) (by decide)

/-! ## C9: the generated target is exactly `wordCount` single-spaced tokens -/

theorem splitOnChar_ne_nil (sep : Char) (l : List Char) :
    splitOnChar sep l ≠ [] := by
  cases l with
  | nil => simp [splitOnChar]
  | cons c cs =>
    by_cases hc : c = sep
    · simp [splitOnChar, hc]
    · simp only [splitOnChar, if_neg hc]
      cases splitOnChar sep cs <;> simp

theorem splitOnChar_of_not_mem (sep : Char) (l : List Char)
    (h : sep ∉ l) : splitOnChar sep l = [l] := by
  induction l with
  | nil => rfl
  | cons c cs ih =>
    have hc : c ≠ sep := fun hcc => h (hcc ▸ List.mem_cons_self c cs)
    have hcs : sep ∉ cs := fun hm => h (List.mem_cons_of_mem c hm)
    simp only [splitOnChar, if_neg hc, ih hcs]

theorem splitOnChar_append_sep (sep : Char) (x w : List Char)
    (hw : sep ∉ w) :
    splitOnChar sep (x ++ sep :: w) = splitOnChar sep x ++ [w] := by
  induction x with
  | nil =>
    simp only [List.nil_append, splitOnChar, if_pos rfl,
      splitOnChar_of_not_mem sep w hw]
    rfl
  | cons c cs ih =>
    by_cases hc : c = sep
    · rw [List.cons_append]
      simp only [splitOnChar, if_pos hc]
      rw [ih]
      rfl
    · rw [List.cons_append]
      simp only [splitOnChar, if_neg hc]
      rw [ih]
      cases hcs : splitOnChar sep cs with
      | nil => exact absurd hcs (splitOnChar_ne_nil sep cs)
      | cons s ss => rfl

theorem generateTarget_succ (wc : Nat) (p n : Bool) (picks : Nat → Nat)
    (h : 1 ≤ wc) :
    generateTarget (wc + 1) p n picks =
      generateTarget wc p n picks ++ ' ' :: poolToken p n (picks wc) := by
  unfold generateTarget
  rw [List.range_succ, List.foldl_append]
  simp only [List.foldl_cons, List.foldl_nil, if_pos (by omega : 0 < wc)]
  rw [List.append_assoc]
  rfl

theorem baseWords_good :
    baseWords.all
      (fun w => !w.toList.isEmpty &&
        w.toList.all (fun c => !(c.toNat == 32) && !(c.toNat == 95))) =
      true := by
  show ((["the", "quick", "brown", "fox", "jumps", "over", "lazy", "dog", "hello", "world", "typing", "test", "program", "simple", "fast", "computer"] ++
      (["keyboard", "screen", "mouse", "software", "hardware", "internet", "website", "email", "password", "username", "login", "download", "upload", "file", "folder", "document"] ++
      (["window", "button", "click", "double", "right", "left", "center", "top", "bottom", "middle", "side", "front", "back", "forward", "backward", "up"] ++
      (["down", "north", "south", "east", "west", "morning", "afternoon", "evening", "night", "today", "tomorrow", "yesterday", "week", "month", "year", "time"] ++
      (["clock", "watch", "minute", "second", "hour", "schedule", "appointment", "meeting", "conference", "presentation", "project", "task", "work", "job", "career", "business"] ++
      (["company", "office", "desk", "chair", "table", "phone", "mobile", "tablet", "laptop", "desktop", "server", "network", "wireless", "bluetooth", "cable", "connection"] ++
      (["signal", "data", "information", "knowledge", "learning", "education", "school", "university", "student", "teacher", "book", "page", "chapter", "paragraph", "sentence", "word"] ++
      (["letter", "number", "count", "calculate", "mathematics", "science", "technology", "innovation", "development", "progress", "improvement", "solution", "problem", "challenge", "opportunity"]))))))) : List String)).all
      (fun w => !w.toList.isEmpty &&
        w.toList.all (fun c => !(c.toNat == 32) && !(c.toNat == 95))) = true
  simp only [List.all_append]
  decide

theorem punctuationWords_good :
    punctuationWords.all
      (fun w => !w.toList.isEmpty &&
        w.toList.all (fun c => !(c.toNat == 32) && !(c.toNat == 95))) =
      true := by
  show ((["hello,", "world!", "it's", "don't", "can't", "won't", "we're", "they're", "you'll", "I'll", "she'll", "he'll", "we'll", "they'll", "isn't", "aren't"] ++
      (["wasn't", "weren't", "hasn't", "haven't", "doesn't", "didn't", "shouldn't", "wouldn't", "couldn't", "mustn't", "needn't", "shan't", "hello.", "goodbye!", "really?", "amazing!"] ++
      (["yes,", "no,", "wait...", "stop!", "go!", "help!", "wow!", "oh!"])) : List String)).all
      (fun w => !w.toList.isEmpty &&
        w.toList.all (fun c => !(c.toNat == 32) && !(c.toNat == 95))) = true
  simp only [List.all_append]
  decide

theorem numberWords_good :
    numberWords.all
      (fun w => !w.toList.isEmpty &&
        w.toList.all (fun c => !(c.toNat == 32) && !(c.toNat == 95))) =
      true := by
  show ((["123", "456", "789", "101", "202", "303", "404", "505", "2024", "2025", "1995", "2000", "42", "99", "100", "1000"] ++
      (["test1", "test2", "file1", "file2", "user1", "user2", "admin123", "pass123", "v1.0", "v2.0", "v3.1", "v4.2", "room101", "room202", "apt3b", "unit4a"] ++
      (["level1", "level2", "step1", "step2", "page1", "page2", "item1", "item2"])) : List String)).all
      (fun w => !w.toList.isEmpty &&
        w.toList.all (fun c => !(c.toNat == 32) && !(c.toNat == 95))) = true
  simp only [List.all_append]
  decide

theorem pureNumbers_good :
    pureNumbers.all
      (fun w => !w.toList.isEmpty &&
        w.toList.all (fun c => !(c.toNat == 32) && !(c.toNat == 95))) =
      true := by
  show ((["0", "1", "2", "3", "4", "5", "6", "7", "8", "9", "10", "11", "12", "13", "14", "15"] ++
      (["16", "17", "18", "19", "20", "25", "30", "42", "50", "75", "99", "100", "123", "456", "789", "1000"] ++
      (["2024", "2025", "3000", "5000"])) : List String)).all
      (fun w => !w.toList.isEmpty &&
        w.toList.all (fun c => !(c.toNat == 32) && !(c.toNat == 95))) = true
  simp only [List.all_append]
  decide

/-- Every word of every pool is nonempty and contains no space (code 32)
and no `'_'` sentinel (code 95). -/
theorem combinedPool_words_good (p n : Bool) :
    (combinedPool p n).all
      (fun w => !w.toList.isEmpty &&
        w.toList.all (fun c => !(c.toNat == 32) && !(c.toNat == 95))) =
      true := by
  cases p <;> cases n <;>
    simp only [combinedPool, Bool.and_self, Bool.and_false, Bool.and_true,
      Bool.false_and, Bool.true_and, Bool.not_true, Bool.not_false,
      Bool.false_eq_true, eq_self_iff_true, if_true, if_false,
      List.all_append, List.all_nil,
      baseWords_good, punctuationWords_good, numberWords_good,
      pureNumbers_good, Bool.and_self]

theorem combinedPool_length_pos (p n : Bool) :
    0 < (combinedPool p n).length := by
  cases p <;> cases n <;>
    simp only [combinedPool, Bool.and_self, Bool.and_false, Bool.and_true,
      Bool.false_and, Bool.true_and, Bool.not_true, Bool.not_false,
      Bool.false_eq_true, eq_self_iff_true, if_true, if_false,
      List.length_append] <;> decide

theorem poolToken_spec (p n : Bool) (pick : Nat) :
    ∃ w ∈ combinedPool p n, poolToken p n pick = w.toList := by
  have hlen := combinedPool_length_pos p n
  have hlt : pick % (combinedPool p n).length < (combinedPool p n).length :=
    Nat.mod_lt _ hlen
  refine ⟨(combinedPool p n).get ⟨_, hlt⟩, List.get_mem _ _ _, ?_⟩
  unfold poolToken
  rw [List.getD_eq_get _ _ hlt]

theorem poolToken_good (p n : Bool) (pick : Nat) :
    poolToken p n pick ≠ [] ∧ ' ' ∉ poolToken p n pick ∧
      '_' ∉ poolToken p n pick := by
  obtain ⟨w, hw, hEq⟩ := poolToken_spec p n pick
  have hall := List.all_eq_true.1 (combinedPool_words_good p n) w hw
  simp only [Bool.and_eq_true, Bool.not_eq_true'] at hall
  obtain ⟨h1, h2⟩ := hall
  rw [hEq]
  refine ⟨by simpa using h1, ?_, ?_⟩
  · intro hmem
    exact absurd (List.all_eq_true.1 h2 ' ' hmem) (by decide)
  · intro hmem
    exact absurd (List.all_eq_true.1 h2 '_' hmem) (by decide)

theorem generateTarget_split (wc : Nat) (p n : Bool) (picks : Nat → Nat)
    (h : 1 ≤ wc) :
    splitOnChar ' ' (generateTarget wc p n picks) =
      (List.range wc).map (fun i => poolToken p n (picks i)) := by
  induction wc with
  | zero => omega
  | succ k ih =>
    rcases Nat.eq_or_lt_of_le h with h1 | h1
    · have hk : k = 0 := by omega
      subst hk
      have : generateTarget 1 p n picks = poolToken p n (picks 0) := rfl
      rw [this, splitOnChar_of_not_mem _ _ (poolToken_good p n (picks 0)).2.1]
      rfl
    · have hk : 1 ≤ k := by omega
      rw [generateTarget_succ k p n picks hk,
        splitOnChar_append_sep _ _ _ (poolToken_good p n (picks k)).2.1,
        ih hk, List.range_succ, List.map_append]
      rfl

/-- C9: for every word count ≥ 1 and every flag combination, the generated
target splits on `' '` into exactly `wordCount` segments, each a nonempty
token drawn from the selected pool — hence single spaces between tokens
and no leading or trailing space. -/
theorem generateTarget_tokens (wc : Nat) (p n : Bool) (picks : Nat → Nat)
    (h : 1 ≤ wc) :
    (splitOnChar ' ' (generateTarget wc p n picks)).length = wc ∧
    ∀ seg ∈ splitOnChar ' ' (generateTarget wc p n picks),
      seg ≠ [] ∧ ∃ w ∈ combinedPool p n, seg = w.toList := by
  rw [generateTarget_split wc p n picks h]
  refine ⟨by simp, ?_⟩
  intro seg hseg
  obtain ⟨i, _, hEq⟩ := List.mem_map.1 hseg
  obtain ⟨w, hw, hwEq⟩ := poolToken_spec p n (picks i)
  exact ⟨hEq ▸ (poolToken_good p n (picks i)).1, w, hw, hEq ▸ hwEq⟩

/-- Closed instance of `generateTarget_tokens`: two base words. -/
theorem generateTarget_tokens_witness :
    (splitOnChar ' ' (generateTarget 2 false false (fun _ => 1))).length = 2 ∧
    ∀ seg ∈ splitOnChar ' ' (generateTarget 2 false false (fun _ => 1)),
      seg ≠ [] ∧ ∃ w ∈ combinedPool false false, seg = w.toList :=
  generateTarget_tokens 2 false false (fun _ => 1) (by decide)

/-! ## C5: insertion keeps the leaderboard sorted and bounded at 10 -/

theorem scoreLe_iff (a b : PlayerScore) :
    scoreLe a b ↔
      b.wpm < a.wpm ∨ (b.wpm = a.wpm ∧ b.accuracy ≤ a.accuracy) := by
  unfold scoreLe compareScores
  by_cases h : b.wpm = a.wpm
  · simp [h]
  · have h2 : ¬ (b.wpm < a.wpm ∧ a.wpm < b.wpm) := fun hc =>
      absurd (lt_trans hc.1 hc.2) (lt_irrefl _)
    constructor
    · intro hle
      rw [if_pos h] at hle
      simp only [decide_eq_false_iff_not, not_lt] at hle
      exact Or.inl (lt_of_le_of_ne hle h)
    · intro hor
      rw [if_pos h]
      simp only [decide_eq_false_iff_not, not_lt]
      rcases hor with hlt | ⟨heq, _⟩
      · exact le_of_lt hlt
      · exact absurd heq h

instance : IsTotal PlayerScore scoreLe :=
  ⟨fun a b => by
    rw [scoreLe_iff, scoreLe_iff]
    rcases lt_trichotomy a.wpm b.wpm with h | h | h
    · exact Or.inr (Or.inl h)
    · rcases le_total a.accuracy b.accuracy with h2 | h2
      · exact Or.inr (Or.inr ⟨h, h2⟩)
      · exact Or.inl (Or.inr ⟨h.symm, h2⟩)
    · exact Or.inl (Or.inl h)⟩

instance : IsTrans PlayerScore scoreLe :=
  ⟨fun a b c hab hbc => by
    rw [scoreLe_iff] at hab hbc ⊢
    rcases hab with h1 | ⟨h1, h1a⟩ <;> rcases hbc with h2 | ⟨h2, h2a⟩
    · exact Or.inl (lt_trans h2 h1)
    · exact Or.inl (h2 ▸ h1)
    · exact Or.inl (h1 ▸ h2)
    · exact Or.inr ⟨h2.trans h1, le_trans h2a h1a⟩⟩

theorem scoreLe_refl (a : PlayerScore) : scoreLe a a :=
  (scoreLe_iff a a).2 (Or.inr ⟨rfl, le_refl _⟩)

/-- Erasing the appended last element is, up to permutation, the identity
on the front list. -/
theorem erase_append_last (l : List PlayerScore) (a : PlayerScore) :
    List.Perm ((l ++ [a]).erase a) l := by
  by_cases ha : a ∈ l
  · rw [List.erase_append_left _ ha]
    exact (List.perm_append_singleton a (l.erase a)).trans
      (List.perm_cons_erase ha).symm
  · rw [List.erase_append_right _ ha]
    simp

/-- C5: `addToLeaderboard` appends, re-sorts by `compareScores` (higher
WPM first, ties by higher accuracy), and truncates to 10, so (a) every
retained pair `a` before `b` satisfies `wpm_a > wpm_b` or
(`wpm_a = wpm_b` and `accuracy_a ≥ accuracy_b`), and the result never
exceeds 10 entries; and (b) inserting an 11th record `r` with higher WPM
than the lowest entry `m` of a sorted 10-entry leaderboard keeps `r`,
leaves exactly 10 entries, and evicts (one record with the key of) `m`:
the result is a permutation of the input plus `r` minus one record with
`m`'s WPM and accuracy. -/
theorem addToLeaderboard_spec (lb' : List PlayerScore) (m r : PlayerScore)
    (h9 : lb'.length = 9)
    (hs : List.Pairwise scoreLe (lb' ++ [m]))
    (hw : m.wpm < r.wpm) :
    (∀ (lb₀ : List PlayerScore) (r₀ : PlayerScore),
      List.Pairwise
        (fun a b => b.wpm < a.wpm ∨ (b.wpm = a.wpm ∧ b.accuracy ≤ a.accuracy))
        (addToLeaderboard lb₀ r₀) ∧
      (addToLeaderboard lb₀ r₀).length ≤ 10) ∧
    (addToLeaderboard (lb' ++ [m]) r).length = 10 ∧
    r ∈ addToLeaderboard (lb' ++ [m]) r ∧
    ∃ d, d.wpm = m.wpm ∧ d.accuracy = m.accuracy ∧
      List.Perm (addToLeaderboard (lb' ++ [m]) r)
        (((lb' ++ [m]) ++ [r]).erase d) := by
  have hgen : ∀ (lb₀ : List PlayerScore) (r₀ : PlayerScore),
      List.Pairwise
        (fun a b => b.wpm < a.wpm ∨ (b.wpm = a.wpm ∧ b.accuracy ≤ a.accuracy))
        (addToLeaderboard lb₀ r₀) ∧
      (addToLeaderboard lb₀ r₀).length ≤ 10 := by
    intro lb₀ r₀
    constructor
    · have hsorted : List.Pairwise scoreLe
          (List.insertionSort scoreLe (lb₀ ++ [r₀])) :=
        List.sorted_insertionSort scoreLe (lb₀ ++ [r₀])
      have htake : List.Pairwise scoreLe (addToLeaderboard lb₀ r₀) :=
        hsorted.sublist (List.take_sublist _ _)
      exact htake.imp (fun hab => (scoreLe_iff _ _).1 hab)
    · unfold addToLeaderboard
      rw [List.length_take]
      omega
  refine ⟨hgen, ?_⟩
  set L := (lb' ++ [m]) ++ [r] with hL
  set S := List.insertionSort scoreLe L with hSdef
  have hperm : List.Perm S L := List.perm_insertionSort scoreLe L
  have hSlen : S.length = 11 := by
    rw [hperm.length_eq, hL]
    simp [h9]
  have hSne : S ≠ [] := by
    intro hnil
    rw [hnil] at hSlen
    simp at hSlen
  set g := S.getLast hSne with hg
  have hdrop : S.dropLast ++ [g] = S := List.dropLast_append_getLast hSne
  have htake : addToLeaderboard (lb' ++ [m]) r = S.dropLast := by
    unfold addToLeaderboard
    rw [← hSdef, List.dropLast_eq_take, hSlen]
  have hsorted : List.Pairwise scoreLe S :=
    List.sorted_insertionSort scoreLe L
  have hbelow : ∀ x ∈ S.dropLast, scoreLe x g := by
    intro x hx
    have := hsorted
    rw [← hdrop] at this
    exact (List.pairwise_append.1 this).2.2 x hx g (List.mem_singleton_self g)
  have hnot_m_r : ¬ scoreLe m r := by
    rw [scoreLe_iff]
    rintro (h | ⟨h, _⟩)
    · exact absurd (lt_trans h hw) (lt_irrefl _)
    · rw [h] at hw
      exact absurd hw (lt_irrefl _)
  have hm_le_g : scoreLe m g := by
    have hm_S : m ∈ S := hperm.mem_iff.2 (by simp [hL])
    rw [← hdrop] at hm_S
    rcases List.mem_append.1 hm_S with hmem | hmem
    · exact hbelow m hmem
    · rw [List.mem_singleton.1 hmem]
      exact scoreLe_refl _
  have hg_ne_r : g ≠ r := by
    intro hEq
    rw [hEq] at hm_le_g
    exact hnot_m_r hm_le_g
  have hg_le_m : scoreLe g m := by
    have hg_L : g ∈ L := hperm.mem_iff.1 (hdrop ▸ List.mem_append_right _
      (List.mem_singleton_self g))
    rw [hL] at hg_L
    rcases List.mem_append.1 hg_L with hmem | hmem
    · rcases List.mem_append.1 hmem with hmem2 | hmem2
      · exact (List.pairwise_append.1 hs).2.2 g hmem2 m
          (List.mem_singleton_self m)
      · rw [List.mem_singleton.1 hmem2]
        exact scoreLe_refl _
    · exact absurd (List.mem_singleton.1 hmem) hg_ne_r
  have hkeys : g.wpm = m.wpm ∧ g.accuracy = m.accuracy := by
    rw [scoreLe_iff] at hm_le_g hg_le_m
    rcases hm_le_g with h1 | ⟨h1, h1a⟩ <;> rcases hg_le_m with h2 | ⟨h2, h2a⟩
    · exact absurd (lt_trans h1 h2) (lt_irrefl _)
    · rw [h2] at h1
      exact absurd h1 (lt_irrefl _)
    · rw [h1] at h2
      exact absurd h2 (lt_irrefl _)
    · exact ⟨h1, le_antisymm h1a h2a⟩
  have hr_mem : r ∈ addToLeaderboard (lb' ++ [m]) r := by
    rw [htake]
    have hr_S : r ∈ S := hperm.mem_iff.2 (by simp [hL])
    rw [← hdrop] at hr_S
    rcases List.mem_append.1 hr_S with hmem | hmem
    · exact hmem
    · exact absurd (List.mem_singleton.1 hmem).symm hg_ne_r
  refine ⟨?_, hr_mem, g, hkeys.1, hkeys.2, ?_⟩
  · rw [htake, List.length_dropLast, hSlen]
  · rw [htake]
    have e1 : List.Perm S.dropLast ((S.dropLast ++ [g]).erase g) :=
      (erase_append_last _ _).symm
    have e2 : (S.dropLast ++ [g]).erase g = S.erase g := by rw [hdrop]
    exact (e2 ▸ e1).trans (hperm.erase g)


/-- Closed instance of `addToLeaderboard_spec`: ten records with WPM
10 … 1, inserting an 11th with WPM 12 evicts the lowest. -/
theorem addToLeaderboard_spec_witness :
    (∀ (lb₀ : List PlayerScore) (r₀ : PlayerScore),
      List.Pairwise
        (fun a b => b.wpm < a.wpm ∨ (b.wpm = a.wpm ∧ b.accuracy ≤ a.accuracy))
        (addToLeaderboard lb₀ r₀) ∧
      (addToLeaderboard lb₀ r₀).length ≤ 10) ∧
    (addToLeaderboard (sampleBoard ++ [sampleScore 1])
      (sampleScore 12)).length = 10 ∧
    sampleScore 12 ∈
      addToLeaderboard (sampleBoard ++ [sampleScore 1])
        (sampleScore 12) ∧
    ∃ d : PlayerScore, d.wpm = (sampleScore 1).wpm ∧
      d.accuracy = (sampleScore 1).accuracy ∧
      List.Perm
        (addToLeaderboard (sampleBoard ++ [sampleScore 1])
          (sampleScore 12))
        (((sampleBoard ++ [sampleScore 1]) ++ [sampleScore 12]).erase d) :=
  addToLeaderboard_spec sampleBoard (sampleScore 1) (sampleScore 12)
    rfl (by decide) (by decide)


/-! ## C7: the save-then-load round trip

Supporting machinery: the decimal renderer of the writer and the `stod`
and `stoi` parsers of the loader are mutually inverse on the values the
writer can represent exactly. -/

theorem isDigit_ne_specials (c : Char) (h : c.isDigit = true) :
    c ≠ '|' ∧ c ≠ '.' ∧ c ≠ ' ' ∧ c ≠ '-' ∧ c ≠ '+' := by
  refine ⟨?_, ?_, ?_, ?_, ?_⟩ <;>
    (intro hEq; rw [hEq] at h; exact absurd h (by decide))

theorem takeWhile_all_eq {p : Char → Bool} (l : List Char)
    (h : ∀ c ∈ l, p c = true) :
    l.takeWhile p = l ∧ l.dropWhile p = [] := by
  induction l with
  | nil => simp
  | cons c cs ih =>
    have hc := h c (List.mem_cons_self c cs)
    have hcs := ih (fun x hx => h x (List.mem_cons_of_mem c hx))
    rw [List.takeWhile_cons, List.dropWhile_cons]
    simp [hc, hcs.1, hcs.2]

theorem stoiMag_digits (ds : List Char) (hne : ds ≠ [])
    (hd : ∀ c ∈ ds, c.isDigit = true) :
    stoiMag ds = some (parseDigits ds) := by
  obtain ⟨htake, _⟩ := takeWhile_all_eq ds hd
  unfold stoiMag
  rw [htake]
  simp [hne]

theorem stoi_digits (ds : List Char) (hne : ds ≠ [])
    (hd : ∀ c ∈ ds, c.isDigit = true) :
    stoi ds = some ((parseDigits ds : ℕ) : Int) := by
  obtain ⟨c, rest, rfl⟩ := List.exists_cons_of_ne_nil hne
  have hc := hd c (List.mem_cons_self c rest)
  obtain ⟨_, _, hsp, hminus, hplus⟩ := isDigit_ne_specials c hc
  unfold stoi
  rw [List.dropWhile_cons]
  simp only [decide_eq_true_eq, if_neg hsp]
  rw [if_neg hminus, if_neg hplus, stoiMag_digits _ hne hd]

end WormType
